import Mathlib

/-!
A verification development for the rustest repository: a shallow embedding of
the mlock session controller, the telemetry collector and the mmap region
operations, with theorems checking the specification's claims about them.
-/

namespace Rustest

/-! ## Character-level parsing primitives (Rust std string operations) -/

/-- Rust char::is_ascii_whitespace: space, tab, newline, form feed, carriage return. -/
def isAsciiWS (c : Char) : Bool :=
  c = ' ' || c = '\t' || c = '\n' || c = '\x0c' || c = '\r'

/-- Accumulator-based splitter mirroring str::split_ascii_whitespace
(empty tokens are skipped). -/
def splitWSAux : List Char → List Char → List (List Char)
  | [], acc => if acc.isEmpty then [] else [acc.reverse]
  | c :: rest, acc =>
    if isAsciiWS c then
      if acc.isEmpty then splitWSAux rest [] else acc.reverse :: splitWSAux rest []
    else
      splitWSAux rest (c :: acc)

def splitWS (l : List Char) : List (List Char) := splitWSAux l []

def isDigitCh (c : Char) : Bool := '0' ≤ c && c ≤ '9'

def digitsToNat (l : List Char) : Nat :=
  l.foldl (fun n c => n * 10 + (c.toNat - 48)) 0

/-- Rust u64::from_str: an optional leading plus sign, at least one digit,
and the value must fit in 64 bits. -/
def parseU64 (s : List Char) : Option Nat :=
  let t := match s with
    | '+' :: r => r
    | _ => s
  if t.isEmpty then none
  else if t.all isDigitCh then
    let n := digitsToNat t
    if n < 2 ^ 64 then some n else none
  else none

/-- The extract_val closure of Proc::collect_meminfo and ProcSelf::collect_status:
split on ascii whitespace, take the second token, parse it as u64, default to 0. -/
def lineVal (l : List Char) : Nat :=
  (((splitWS l).get? 1).bind parseU64).getD 0

/-! ## System telemetry (struct Proc in src/bin/mlock.rs) -/

/-- System telemetry snapshot. All counters are u64, kept as Nat; parsing keeps
them below 2^64. -/
structure Proc where
  page_size : Nat
  mlocked : Nat
  swap_total : Nat
  swap_free : Nat
  anon_pages : Nat
  pswpin : Nat
  pswpout : Nat
  pswpin_delta : Nat
  pswpout_delta : Nat
deriving DecidableEq

/-- One iteration of the Proc::collect_meminfo loop body: the if/else chain over
the known field names; the Bool records whether the loop breaks (AnonPages arm). -/
def meminfoLine (p : Proc) (l : List Char) : Proc × Bool :=
  if "Mlocked:".data.isPrefixOf l then ({ p with mlocked := lineVal l }, false)
  else if "SwapTotal:".data.isPrefixOf l then ({ p with swap_total := lineVal l }, false)
  else if "SwapFree:".data.isPrefixOf l then ({ p with swap_free := lineVal l }, false)
  else if "AnonPages:".data.isPrefixOf l then ({ p with anon_pages := lineVal l }, true)
  else (p, false)

/-- Proc::collect_meminfo's line loop. A none entry is a failed line read: its Err
propagates out of collect_meminfo and is then ignored by Proc::collect, so the
fields collected so far are kept. -/
def runMeminfo : Proc → List (Option (List Char)) → Proc
  | p, [] => p
  | p, none :: _ => p
  | p, some l :: rest =>
    match meminfoLine p l with
    | (p', true) => p'
    | (p', false) => runMeminfo p' rest

/-- One iteration of the Proc::collect_vmstat loop body: strip the two counter
name tags; the Bool records whether the loop breaks (pswpout arm). -/
def vmstatLine (p : Proc) (l : List Char) : Proc × Bool :=
  if "pswpin ".data.isPrefixOf l then
    ({ p with pswpin := (parseU64 (l.drop "pswpin ".data.length)).getD 0 }, false)
  else if "pswpout ".data.isPrefixOf l then
    ({ p with pswpout := (parseU64 (l.drop "pswpout ".data.length)).getD 0 }, true)
  else (p, false)

def runVmstat : Proc → List (Option (List Char)) → Proc
  | p, [] => p
  | p, none :: _ => p
  | p, some l :: rest =>
    match vmstatLine p l with
    | (p', true) => p'
    | (p', false) => runVmstat p' rest

/-- A counter source: none when the file cannot be opened at all; an inner none is
a line whose read failed. -/
abbrev Src := Option (List (Option (List Char)))

/-- Proc::collect_meminfo including the swallowed open failure. -/
def collectMeminfo (p : Proc) : Src → Proc
  | none => p
  | some ls => runMeminfo p ls

/-- Proc::collect_vmstat including the swallowed open failure. -/
def collectVmstat (p : Proc) : Src → Proc
  | none => p
  | some ls => runVmstat p ls

/-- The zero-initialized Proc built at the top of Proc::collect. -/
def Proc.start (pageSize : Nat) : Proc :=
  ⟨pageSize, 0, 0, 0, 0, 0, 0, 0, 0⟩

/-- Wrapping u64 subtraction: release-mode Rust semantics of a - b on u64 (a debug
build panics instead when b > a; in neither mode does it saturate to 0). -/
def wsub64 (a b : Nat) : Nat := (2 ^ 64 + a - b) % 2 ^ 64

/-- Proc::collect. The page size is the platform query rustest::page_size(),
supplied by the environment; the two sources stand for /proc/meminfo and
/proc/vmstat. -/
def Proc.collect (pageSize : Nat) (prev : Option Proc) (meminfoSrc vmstatSrc : Src) :
    Proc :=
  let p := collectVmstat (collectMeminfo (Proc.start pageSize) meminfoSrc) vmstatSrc
  match prev with
  | none => p
  | some pr =>
    { p with
      pswpin_delta := wsub64 p.pswpin pr.pswpin
      pswpout_delta := wsub64 p.pswpout pr.pswpout }

/-! ## Per-process telemetry (struct ProcSelf in src/bin/mlock.rs) -/

structure ProcSelf where
  vm_lck : Nat
  rss_anon : Nat
  vm_swap : Nat
deriving DecidableEq

/-- One iteration of the ProcSelf::collect_status loop body; the Bool records
whether the loop breaks (VmSwap arm). -/
def statusLine (s : ProcSelf) (l : List Char) : ProcSelf × Bool :=
  if "VmLck:".data.isPrefixOf l then ({ s with vm_lck := lineVal l }, false)
  else if "RssAnon:".data.isPrefixOf l then ({ s with rss_anon := lineVal l }, false)
  else if "VmSwap:".data.isPrefixOf l then ({ s with vm_swap := lineVal l }, true)
  else (s, false)

def runStatus : ProcSelf → List (Option (List Char)) → ProcSelf
  | s, [] => s
  | s, none :: _ => s
  | s, some l :: rest =>
    match statusLine s l with
    | (s', true) => s'
    | (s', false) => runStatus s' rest

/-- ProcSelf::collect including the swallowed open failure. -/
def ProcSelf.collect : Src → ProcSelf
  | none => ⟨0, 0, 0⟩
  | some ls => runStatus ⟨0, 0, 0⟩ ls

/-! ## Mmap fill and page-size selection (src/lib.rs) -/

/-- The cast `sysconf(_SC_PAGE_SIZE) as usize` in Mmap::fill: a two's-complement
reinterpretation of the C long return value as a 64-bit unsigned value. -/
def toUsize (r : Int) : Nat := (r % (2 ^ 64 : Int)).toNat

/-- The page-size selection at the top of Mmap::fill. The comparison mirrors the
source's `page_size <= 0`, which is evaluated on the already-cast unsigned value. -/
def fillPageSize (r : Int) : Nat :=
  let page_size := toUsize r
  if page_size ≤ 0 then 4096 else page_size

/-- The page count computed by Mmap::fill, `(len + page_size - 1) / page_size`:
the sum is usize arithmetic, so it wraps modulo 2^64 (release semantics; a debug
build panics on the overflow). -/
def pageCount (pageSize len : Nat) : Nat :=
  ((len + pageSize - 1) % 2 ^ 64) / pageSize

/-- The byte offsets written by Mmap::fill's loop, in loop order:
`bytes[page * page_size]` for page in 0..page_count. -/
def fillOffsets (pageSize len : Nat) : List Nat :=
  (List.range (pageCount pageSize len)).map (· * pageSize)

/-- Mmap::fill's effect on the region's bytes, given the page size already
selected: write val at the first byte of each page. -/
def fillBytes (pageSize val : Nat) (bytes : List Nat) : List Nat :=
  (fillOffsets pageSize bytes.length).foldl (fun bs o => bs.set o val) bytes

/-- Mmap::fill as called: select the page size from the sysconf result, then
write the probe byte at the start of every page. -/
def fillMmap (sysconfRet : Int) (val : Nat) (bytes : List Nat) : List Nat :=
  fillBytes (fillPageSize sysconfRet) val bytes

/-! ## The copy-loop page-in of src/bin/pgmajfault.rs -/

/-- BUF_SIZE in pgmajfault's Mmap::populate: a fixed constant, not a platform
page-size query. -/
def BUF_SIZE : Nat := 4096

/-- One chunk list step of the populate while-loop, with fuel for structural
recursion; fuel = len - offset always suffices since each chunk is at least one
byte. Each entry is (offset, copy length). -/
def populateChunksGo : Nat → Nat → Nat → List (Nat × Nat)
  | 0, _, _ => []
  | fuel + 1, len, offset =>
    if offset < len then
      let copy := min (len - offset) BUF_SIZE
      (offset, copy) :: populateChunksGo fuel len (offset + copy)
    else []

/-- The sequence of (offset, length) memcpy chunks performed by pgmajfault's
Mmap::populate on a region of the given length, starting at the given offset. -/
def populateChunks (len offset : Nat) : List (Nat × Nat) :=
  populateChunksGo (len - offset) len offset

/-! ## The mlock session (struct Mlock in src/bin/mlock.rs)

Regions are modelled with an identity for their underlying mapping so that the
mmap/munmap pairing can be traced. The trace fields record, in order, the ids
passed to a successful mmap and the ids passed to munmap (the Drop impl). -/

/-- CHUNK_SIZE_MB in src/bin/mlock.rs. -/
def CHUNK_SIZE_MB : Nat := 256

/-- The byte length of every region the session maps. -/
def CHUNK_SIZE : Nat := CHUNK_SIZE_MB * 1024 * 1024

/-- The probe byte passed to fill by Mlock::add for an unlocked region:
`(unlocked.len() + 1) as u8`. -/
def probeByte (unlockedLen : Nat) : Nat := (unlockedLen + 1) % 256

/-- A live mapped region: the id identifies its underlying mapping, len is its
byte length, fillVal records the probe byte written into it (none for regions
that were never filled). -/
structure Region where
  id : Nat
  len : Nat
  fillVal : Option Nat
deriving DecidableEq

/-- The two heaps of struct Mlock, in Vec order (most recent last). -/
structure Mlock where
  locked : List Region
  unlocked : List Region
deriving DecidableEq

inductive MlockHeap where
  | locked
  | unlocked
deriving DecidableEq

/-- Session state together with the mmap/munmap event traces. -/
structure St where
  mlock : Mlock
  nextId : Nat
  mapTrace : List Nat
  unmapTrace : List Nat
deriving DecidableEq

def St.start : St := ⟨⟨[], []⟩, 0, [], []⟩

/-- Mlock::add. mmapOk tells whether Mmap::anonymous succeeds (on failure nothing
was mapped and the add returns the error); lockOk tells whether mlock succeeds for
the locked heap (on failure the `?` drops the just-created local mapping — one
munmap — and the add returns the error, leaving both heaps untouched). The
returned Bool is whether the add succeeded. -/
def addStep (heap : MlockHeap) (mmapOk lockOk : Bool) (st : St) : Bool × St :=
  if mmapOk then
    let r : Region := ⟨st.nextId, CHUNK_SIZE, none⟩
    let st' : St := { st with nextId := st.nextId + 1, mapTrace := st.mapTrace ++ [r.id] }
    match heap with
    | .locked =>
      if lockOk then
        (true, { st' with mlock := { st'.mlock with locked := st'.mlock.locked ++ [r] } })
      else
        (false, { st' with unmapTrace := st'.unmapTrace ++ [r.id] })
    | .unlocked =>
      let r' : Region := { r with fillVal := some (probeByte st.mlock.unlocked.length) }
      (true, { st' with mlock := { st'.mlock with unlocked := st'.mlock.unlocked ++ [r'] } })
  else
    (false, st)

/-- Mlock::remove: pop the most recent region of the heap; drop it (one munmap);
return whether one existed. -/
def removeStep (heap : MlockHeap) (st : St) : Bool × St :=
  match heap with
  | .locked =>
    match st.mlock.locked.getLast? with
    | some r =>
      (true, { st with
                mlock := { st.mlock with locked := st.mlock.locked.dropLast },
                unmapTrace := st.unmapTrace ++ [r.id] })
    | none => (false, st)
  | .unlocked =>
    match st.mlock.unlocked.getLast? with
    | some r =>
      (true, { st with
                mlock := { st.mlock with unlocked := st.mlock.unlocked.dropLast },
                unmapTrace := st.unmapTrace ++ [r.id] })
    | none => (false, st)

/-- The discrete session actions, with the environment outcomes for the fallible
mmap and mlock calls baked into each add. Mlock::page_in locks and unlocks each
unlocked region best-effort and changes no session state and no mapping. -/
inductive Op where
  | add (heap : MlockHeap) (mmapOk lockOk : Bool)
  | remove (heap : MlockHeap)
  | pageIn
deriving DecidableEq

def stepR : Op → St → Bool × St
  | .add heap mmapOk lockOk, st => addStep heap mmapOk lockOk st
  | .remove heap, st => removeStep heap st
  | .pageIn, st => (true, st)

def step (op : Op) (st : St) : St := (stepR op st).2

def run (st : St) (ops : List Op) : St := ops.foldl (fun s op => step op s) st

/-- The ids of the mappings currently owned by the session, locked heap first
(the Drop order of struct Mlock's fields). -/
def heapIds (m : Mlock) : List Nat := (m.locked ++ m.unlocked).map Region.id

/-- Session teardown: when the Mlock value goes out of scope — normal quit, fatal
error or early return alike — both Vecs are dropped, munmapping every region
still owned. -/
def finalize (st : St) : St :=
  { st with mlock := ⟨[], []⟩, unmapTrace := st.unmapTrace ++ heapIds st.mlock }

/-- Total bytes currently mapped in the locked heap (sum of region lengths). -/
def Mlock.lockedBytes (m : Mlock) : Nat := (m.locked.map Region.len).sum

/-- Total bytes currently mapped in the unlocked heap. -/
def Mlock.unlockedBytes (m : Mlock) : Nat := (m.unlocked.map Region.len).sum

/-! ## Auxiliary predicates and concrete inputs used by the claim theorems -/

/-- No line of the source carries the given counter tag at its start. -/
def noLineWith (tag : List Char) (ls : List (Option (List Char))) : Bool :=
  ls.all fun x =>
    match x with
    | none => true
    | some s => !(tag.isPrefixOf s)

/-- The resource-trace invariant of the session: every successful mmap is either
already munmapped or still owned by exactly one heap slot, mmapped ids are
pairwise distinct, and all of them are below the id counter. -/
def Inv (st : St) : Prop :=
  (∀ n, st.mapTrace.count n = st.unmapTrace.count n + (heapIds st.mlock).count n)
  ∧ st.mapTrace.Nodup
  ∧ ∀ n ∈ st.mapTrace, n < st.nextId

/-- The locked-heap count left by a locked-only action sequence: up on add, down
(floored at zero, as Vec::pop on empty does nothing) on remove. -/
def lockedNet (ops : List Op) : Nat :=
  ops.foldl
    (fun n op =>
      match op with
      | Op.add .locked _ _ => n + 1
      | Op.remove .locked => n - 1
      | _ => n)
    0

/-- An action sequence with two adds and two removes whose middle remove hits an
empty locked heap. -/
def c4ops : List Op :=
  [Op.add .locked true true, Op.remove .locked, Op.remove .locked,
   Op.add .locked true true]

/-- A session state owning 255 unlocked regions. -/
def st255 : St :=
  ⟨⟨[], (List.range 255).map fun i => ⟨i, CHUNK_SIZE, some (probeByte i)⟩⟩, 255, [], []⟩

/-- A meminfo source missing the SwapTotal line (end-to-end scenario 3). -/
def scenario3Meminfo : List (Option (List Char)) :=
  [some "Mlocked: 100 kB".data, some "SwapFree: 200 kB".data,
   some "AnonPages: 300 kB".data]

/-- A vmstat source for the scenario-3 snapshot. -/
def scenario3Vmstat : List (Option (List Char)) :=
  [some "pswpin 7".data, some "pswpout 8".data]

/-- A vmstat source whose cumulative counters read 5 and 6. -/
def vmstatFirst : List (Option (List Char)) :=
  [some "pswpin 5".data, some "pswpout 6".data]

/-- A later vmstat source whose pswpin counter has decreased to 3. -/
def vmstatDecreased : List (Option (List Char)) :=
  [some "pswpin 3".data, some "pswpout 6".data]

/-- A later vmstat source whose pswpin counter has increased to 9. -/
def vmstatIncreased : List (Option (List Char)) :=
  [some "pswpin 9".data, some "pswpout 6".data]

/-! ## Lemmas on the telemetry collectors -/

theorem runMeminfo_cons_some (p : Proc) (l : List Char) (rest : List (Option (List Char))) :
    runMeminfo p (some l :: rest)
      = if (meminfoLine p l).2 then (meminfoLine p l).1
        else runMeminfo (meminfoLine p l).1 rest := by
  rcases hm : meminfoLine p l with ⟨p', b⟩
  cases b <;> simp [runMeminfo, hm]

theorem runVmstat_cons_some (p : Proc) (l : List Char) (rest : List (Option (List Char))) :
    runVmstat p (some l :: rest)
      = if (vmstatLine p l).2 then (vmstatLine p l).1
        else runVmstat (vmstatLine p l).1 rest := by
  rcases hm : vmstatLine p l with ⟨p', b⟩
  cases b <;> simp [runVmstat, hm]

theorem runStatus_cons_some (s : ProcSelf) (l : List Char) (rest : List (Option (List Char))) :
    runStatus s (some l :: rest)
      = if (statusLine s l).2 then (statusLine s l).1
        else runStatus (statusLine s l).1 rest := by
  rcases hm : statusLine s l with ⟨s', b⟩
  cases b <;> simp [runStatus, hm]

theorem prefixes_clash (p q l : List Char) (i : Nat) (hip : i < p.length)
    (hiq : i < q.length) (hne : p.get? i ≠ q.get? i)
    (hp : p.isPrefixOf l = true) (hq : q.isPrefixOf l = true) : False := by
  obtain ⟨t, ht⟩ := List.isPrefixOf_iff_prefix.mp hp
  obtain ⟨u, hu⟩ := List.isPrefixOf_iff_prefix.mp hq
  apply hne
  have h1 : l.get? i = p.get? i := by rw [← ht]; exact List.get?_append hip
  have h2 : l.get? i = q.get? i := by rw [← hu]; exact List.get?_append hiq
  rw [← h1, ← h2]

theorem meminfoLine_swap_total (p : Proc) (l : List Char)
    (h : "SwapTotal:".data.isPrefixOf l = false) :
    (meminfoLine p l).1.swap_total = p.swap_total := by
  unfold meminfoLine
  split_ifs <;> simp_all

theorem meminfoLine_mlocked (p : Proc) (l : List Char)
    (h : "Mlocked:".data.isPrefixOf l = false) :
    (meminfoLine p l).1.mlocked = p.mlocked := by
  unfold meminfoLine
  split_ifs <;> simp_all

theorem statusLine_vm_lck (s : ProcSelf) (l : List Char)
    (h : "VmLck:".data.isPrefixOf l = false) :
    (statusLine s l).1.vm_lck = s.vm_lck := by
  unfold statusLine
  split_ifs <;> simp_all

theorem meminfoLine_frame (p : Proc) (l : List Char) :
    (meminfoLine p l).1.page_size = p.page_size
    ∧ (meminfoLine p l).1.pswpin = p.pswpin
    ∧ (meminfoLine p l).1.pswpout = p.pswpout
    ∧ (meminfoLine p l).1.pswpin_delta = p.pswpin_delta
    ∧ (meminfoLine p l).1.pswpout_delta = p.pswpout_delta := by
  unfold meminfoLine
  split_ifs <;> exact ⟨rfl, rfl, rfl, rfl, rfl⟩

theorem vmstatLine_frame (p : Proc) (l : List Char) :
    (vmstatLine p l).1.page_size = p.page_size
    ∧ (vmstatLine p l).1.mlocked = p.mlocked
    ∧ (vmstatLine p l).1.swap_total = p.swap_total
    ∧ (vmstatLine p l).1.swap_free = p.swap_free
    ∧ (vmstatLine p l).1.anon_pages = p.anon_pages
    ∧ (vmstatLine p l).1.pswpin_delta = p.pswpin_delta
    ∧ (vmstatLine p l).1.pswpout_delta = p.pswpout_delta := by
  unfold vmstatLine
  split_ifs <;> exact ⟨rfl, rfl, rfl, rfl, rfl, rfl, rfl⟩

theorem noLineWith_cons_some (tag s : List Char) (rest : List (Option (List Char)))
    (h : noLineWith tag (some s :: rest) = true) :
    tag.isPrefixOf s = false ∧ noLineWith tag rest = true := by
  simp only [noLineWith, List.all_cons, Bool.and_eq_true, Bool.not_eq_true'] at h
  exact ⟨h.1, h.2⟩

theorem runMeminfo_swap_total (p : Proc) (ls : List (Option (List Char)))
    (h : noLineWith "SwapTotal:".data ls = true) :
    (runMeminfo p ls).swap_total = p.swap_total := by
  induction ls generalizing p with
  | nil => rfl
  | cons x rest ih =>
    cases x with
    | none => rfl
    | some l =>
      obtain ⟨hx, hrest⟩ := noLineWith_cons_some _ _ _ h
      rw [runMeminfo_cons_some]
      cases hb : (meminfoLine p l).2 with
      | true => simp only [if_pos rfl, hb, if_true]; exact meminfoLine_swap_total p l hx
      | false =>
        simp only [hb, if_false, Bool.false_eq_true]
        rw [ih _ hrest, meminfoLine_swap_total p l hx]

theorem runMeminfo_mlocked (p : Proc) (ls : List (Option (List Char)))
    (h : noLineWith "Mlocked:".data ls = true) :
    (runMeminfo p ls).mlocked = p.mlocked := by
  induction ls generalizing p with
  | nil => rfl
  | cons x rest ih =>
    cases x with
    | none => rfl
    | some l =>
      obtain ⟨hx, hrest⟩ := noLineWith_cons_some _ _ _ h
      rw [runMeminfo_cons_some]
      cases hb : (meminfoLine p l).2 with
      | true => simp only [hb, if_true]; exact meminfoLine_mlocked p l hx
      | false =>
        simp only [hb, if_false, Bool.false_eq_true]
        rw [ih _ hrest, meminfoLine_mlocked p l hx]

theorem runStatus_vm_lck (s : ProcSelf) (ls : List (Option (List Char)))
    (h : noLineWith "VmLck:".data ls = true) :
    (runStatus s ls).vm_lck = s.vm_lck := by
  induction ls generalizing s with
  | nil => rfl
  | cons x rest ih =>
    cases x with
    | none => rfl
    | some l =>
      obtain ⟨hx, hrest⟩ := noLineWith_cons_some _ _ _ h
      rw [runStatus_cons_some]
      cases hb : (statusLine s l).2 with
      | true => simp only [hb, if_true]; exact statusLine_vm_lck s l hx
      | false =>
        simp only [hb, if_false, Bool.false_eq_true]
        rw [ih _ hrest, statusLine_vm_lck s l hx]

theorem runMeminfo_error_cut (p : Proc) (pre post : List (Option (List Char))) :
    runMeminfo p (pre ++ none :: post) = runMeminfo p pre := by
  induction pre generalizing p with
  | nil => rfl
  | cons x rest ih =>
    cases x with
    | none => rfl
    | some l =>
      rw [List.cons_append, runMeminfo_cons_some, runMeminfo_cons_some]
      cases hb : (meminfoLine p l).2 <;> simp [hb, ih]

theorem runMeminfo_frame (p : Proc) (ls : List (Option (List Char))) :
    (runMeminfo p ls).page_size = p.page_size
    ∧ (runMeminfo p ls).pswpin = p.pswpin
    ∧ (runMeminfo p ls).pswpout = p.pswpout
    ∧ (runMeminfo p ls).pswpin_delta = p.pswpin_delta
    ∧ (runMeminfo p ls).pswpout_delta = p.pswpout_delta := by
  induction ls generalizing p with
  | nil => exact ⟨rfl, rfl, rfl, rfl, rfl⟩
  | cons x rest ih =>
    cases x with
    | none => exact ⟨rfl, rfl, rfl, rfl, rfl⟩
    | some l =>
      have hf := meminfoLine_frame p l
      rw [runMeminfo_cons_some]
      cases hb : (meminfoLine p l).2 with
      | true => simpa [hb] using hf
      | false =>
        have hr := ih (meminfoLine p l).1
        simp only [hb, if_false, Bool.false_eq_true]
        exact ⟨hr.1.trans hf.1, hr.2.1.trans hf.2.1, hr.2.2.1.trans hf.2.2.1,
          hr.2.2.2.1.trans hf.2.2.2.1, hr.2.2.2.2.trans hf.2.2.2.2⟩

theorem runVmstat_frame (p : Proc) (ls : List (Option (List Char))) :
    (runVmstat p ls).page_size = p.page_size
    ∧ (runVmstat p ls).mlocked = p.mlocked
    ∧ (runVmstat p ls).swap_total = p.swap_total
    ∧ (runVmstat p ls).swap_free = p.swap_free
    ∧ (runVmstat p ls).anon_pages = p.anon_pages
    ∧ (runVmstat p ls).pswpin_delta = p.pswpin_delta
    ∧ (runVmstat p ls).pswpout_delta = p.pswpout_delta := by
  induction ls generalizing p with
  | nil => exact ⟨rfl, rfl, rfl, rfl, rfl, rfl, rfl⟩
  | cons x rest ih =>
    cases x with
    | none => exact ⟨rfl, rfl, rfl, rfl, rfl, rfl, rfl⟩
    | some l =>
      have hf := vmstatLine_frame p l
      rw [runVmstat_cons_some]
      cases hb : (vmstatLine p l).2 with
      | true => simpa [hb] using hf
      | false =>
        have hr := ih (vmstatLine p l).1
        simp only [hb, if_false, Bool.false_eq_true]
        exact ⟨hr.1.trans hf.1, hr.2.1.trans hf.2.1, hr.2.2.1.trans hf.2.2.1,
          hr.2.2.2.1.trans hf.2.2.2.1, hr.2.2.2.2.1.trans hf.2.2.2.2.1,
          hr.2.2.2.2.2.1.trans hf.2.2.2.2.2.1, hr.2.2.2.2.2.2.trans hf.2.2.2.2.2.2⟩

theorem parseU64_some_lt (s : List Char) (n : Nat) (h : parseU64 s = some n) :
    n < 2 ^ 64 := by
  simp only [parseU64] at h
  split at h
  · exact absurd h (by simp)
  · split at h
    · split at h
      · cases h; assumption
      · exact absurd h (by simp)
    · exact absurd h (by simp)

theorem parseU64_getD_lt (s : List Char) : (parseU64 s).getD 0 < 2 ^ 64 := by
  cases h : parseU64 s with
  | none => simp
  | some n => simpa using parseU64_some_lt s n h

theorem vmstatLine_pswp_lt (p : Proc) (l : List Char)
    (hin : p.pswpin < 2 ^ 64) (hout : p.pswpout < 2 ^ 64) :
    (vmstatLine p l).1.pswpin < 2 ^ 64 ∧ (vmstatLine p l).1.pswpout < 2 ^ 64 := by
  unfold vmstatLine
  split_ifs <;> exact ⟨by first | exact hin | exact parseU64_getD_lt _,
    by first | exact hout | exact parseU64_getD_lt _⟩

theorem runVmstat_pswp_lt (p : Proc) (ls : List (Option (List Char)))
    (hin : p.pswpin < 2 ^ 64) (hout : p.pswpout < 2 ^ 64) :
    (runVmstat p ls).pswpin < 2 ^ 64 ∧ (runVmstat p ls).pswpout < 2 ^ 64 := by
  induction ls generalizing p with
  | nil => exact ⟨hin, hout⟩
  | cons x rest ih =>
    cases x with
    | none => exact ⟨hin, hout⟩
    | some l =>
      have hl := vmstatLine_pswp_lt p l hin hout
      rw [runVmstat_cons_some]
      cases hb : (vmstatLine p l).2 with
      | true => simpa [hb] using hl
      | false =>
        simp only [hb, if_false, Bool.false_eq_true]
        exact ih _ hl.1 hl.2

theorem collect_pswp_lt (ps : Nat) (prev : Option Proc) (m v : Src) :
    (Proc.collect ps prev m v).pswpin < 2 ^ 64
    ∧ (Proc.collect ps prev m v).pswpout < 2 ^ 64 := by
  have hm : (collectMeminfo (Proc.start ps) m).pswpin < 2 ^ 64
      ∧ (collectMeminfo (Proc.start ps) m).pswpout < 2 ^ 64 := by
    cases m with
    | none => exact ⟨by norm_num [collectMeminfo, Proc.start], by norm_num [collectMeminfo, Proc.start]⟩
    | some ls =>
      have hf := runMeminfo_frame (Proc.start ps) ls
      constructor
      · show (runMeminfo (Proc.start ps) ls).pswpin < 2 ^ 64
        rw [hf.2.1]; norm_num [Proc.start]
      · show (runMeminfo (Proc.start ps) ls).pswpout < 2 ^ 64
        rw [hf.2.2.1]; norm_num [Proc.start]
  have hv : (collectVmstat (collectMeminfo (Proc.start ps) m) v).pswpin < 2 ^ 64
      ∧ (collectVmstat (collectMeminfo (Proc.start ps) m) v).pswpout < 2 ^ 64 := by
    cases v with
    | none => exact hm
    | some ls => exact runVmstat_pswp_lt _ ls hm.1 hm.2
  cases prev with
  | none => exact hv
  | some pr => exact hv

theorem collect_some_delta (ps : Nat) (pr : Proc) (m v : Src) :
    (Proc.collect ps (some pr) m v).pswpin_delta
        = wsub64 (Proc.collect ps (some pr) m v).pswpin pr.pswpin
    ∧ (Proc.collect ps (some pr) m v).pswpout_delta
        = wsub64 (Proc.collect ps (some pr) m v).pswpout pr.pswpout := by
  exact ⟨rfl, rfl⟩

theorem collect_none_delta (ps : Nat) (m v : Src) :
    (Proc.collect ps none m v).pswpin_delta = 0
    ∧ (Proc.collect ps none m v).pswpout_delta = 0 := by
  have hm : (collectMeminfo (Proc.start ps) m).pswpin_delta = 0
      ∧ (collectMeminfo (Proc.start ps) m).pswpout_delta = 0 := by
    cases m with
    | none => exact ⟨rfl, rfl⟩
    | some ls =>
      have := runMeminfo_frame (Proc.start ps) ls
      exact ⟨this.2.2.2.1, this.2.2.2.2⟩
  cases v with
  | none => exact hm
  | some ls =>
    have := runVmstat_frame (collectMeminfo (Proc.start ps) m) ls
    exact ⟨this.2.2.2.2.2.1.trans hm.1, this.2.2.2.2.2.2.trans hm.2⟩

theorem collect_swap_total (ps : Nat) (prev : Option Proc) (v : Src)
    (ls : List (Option (List Char))) (h : noLineWith "SwapTotal:".data ls = true) :
    (Proc.collect ps prev (some ls) v).swap_total = 0 := by
  have hm : (collectMeminfo (Proc.start ps) (some ls)).swap_total = 0 :=
    runMeminfo_swap_total (Proc.start ps) ls h
  have hv : (collectVmstat (collectMeminfo (Proc.start ps) (some ls)) v).swap_total = 0 := by
    cases v with
    | none => exact hm
    | some ls' => exact (runVmstat_frame _ ls').2.2.1.trans hm
  cases prev with
  | none => exact hv
  | some pr => exact hv

/-! ## Lemmas on the session state machine -/

theorem step_add_locked_ok (st : St) :
    step (.add .locked true true) st
      = { st with
          nextId := st.nextId + 1,
          mapTrace := st.mapTrace ++ [st.nextId],
          mlock := { st.mlock with
            locked := st.mlock.locked ++ [⟨st.nextId, CHUNK_SIZE, none⟩] } } := rfl

theorem step_add_locked_lockfail (st : St) :
    step (.add .locked true false) st
      = { st with
          nextId := st.nextId + 1,
          mapTrace := st.mapTrace ++ [st.nextId],
          unmapTrace := st.unmapTrace ++ [st.nextId] } := rfl

theorem step_add_unlocked_ok (st : St) (b : Bool) :
    step (.add .unlocked true b) st
      = { st with
          nextId := st.nextId + 1,
          mapTrace := st.mapTrace ++ [st.nextId],
          mlock := { st.mlock with
            unlocked := st.mlock.unlocked
              ++ [⟨st.nextId, CHUNK_SIZE, some (probeByte st.mlock.unlocked.length)⟩] } } := rfl

theorem step_add_mmapfail (heap : MlockHeap) (b : Bool) (st : St) :
    step (.add heap false b) st = st := rfl

theorem step_remove_locked_some (st : St) (r : Region)
    (h : st.mlock.locked.getLast? = some r) :
    step (.remove .locked) st
      = { st with
          mlock := { st.mlock with locked := st.mlock.locked.dropLast },
          unmapTrace := st.unmapTrace ++ [r.id] } := by
  simp [step, stepR, removeStep, h]

theorem step_remove_locked_none (st : St) (h : st.mlock.locked.getLast? = none) :
    step (.remove .locked) st = st := by
  simp [step, stepR, removeStep, h]

theorem step_remove_unlocked_some (st : St) (r : Region)
    (h : st.mlock.unlocked.getLast? = some r) :
    step (.remove .unlocked) st
      = { st with
          mlock := { st.mlock with unlocked := st.mlock.unlocked.dropLast },
          unmapTrace := st.unmapTrace ++ [r.id] } := by
  simp [step, stepR, removeStep, h]

theorem step_remove_unlocked_none (st : St) (h : st.mlock.unlocked.getLast? = none) :
    step (.remove .unlocked) st = st := by
  simp [step, stepR, removeStep, h]

theorem inv_start : Inv St.start := by
  refine ⟨fun n => rfl, List.nodup_nil, fun n hn => ?_⟩
  simp [St.start] at hn

theorem inv_step (op : Op) (st : St) (h : Inv st) : Inv (step op st) := by
  obtain ⟨hc, hd, hb⟩ := h
  have hnotmem : st.nextId ∉ st.mapTrace := fun hm => lt_irrefl _ (hb _ hm)
  have hnodup : (st.mapTrace ++ [st.nextId]).Nodup := by
    rw [← List.concat_eq_append]
    exact List.Nodup.concat hnotmem hd
  have hbound : ∀ n ∈ st.mapTrace ++ [st.nextId], n < st.nextId + 1 := by
    intro n hn
    rcases List.mem_append.mp hn with hn | hn
    · exact Nat.lt_succ_of_lt (hb _ hn)
    · rcases List.mem_singleton.mp hn with rfl
      exact Nat.lt_succ_self _
  cases op with
  | pageIn => exact ⟨hc, hd, hb⟩
  | add heap mmapOk lockOk =>
    cases mmapOk with
    | false => rw [step_add_mmapfail]; exact ⟨hc, hd, hb⟩
    | true =>
      cases heap with
      | locked =>
        cases lockOk with
        | true =>
          rw [step_add_locked_ok]
          refine ⟨fun n => ?_, hnodup, hbound⟩
          have := hc n
          show (st.mapTrace ++ [st.nextId]).count n
              = st.unmapTrace.count n
                + (heapIds { st.mlock with
                    locked := st.mlock.locked ++ [⟨st.nextId, CHUNK_SIZE, none⟩] }).count n
          simp only [heapIds, List.map_append, List.count_append, List.map_cons,
            List.map_nil] at this ⊢
          omega
        | false =>
          rw [step_add_locked_lockfail]
          refine ⟨fun n => ?_, hnodup, hbound⟩
          have := hc n
          show (st.mapTrace ++ [st.nextId]).count n
              = (st.unmapTrace ++ [st.nextId]).count n + (heapIds st.mlock).count n
          simp only [List.count_append] at this ⊢
          omega
      | unlocked =>
        rw [step_add_unlocked_ok]
        refine ⟨fun n => ?_, hnodup, hbound⟩
        have := hc n
        show (st.mapTrace ++ [st.nextId]).count n
            = st.unmapTrace.count n
              + (heapIds { st.mlock with
                  unlocked := st.mlock.unlocked
                    ++ [⟨st.nextId, CHUNK_SIZE,
                          some (probeByte st.mlock.unlocked.length)⟩] }).count n
        simp only [heapIds, List.map_append, List.count_append, List.map_cons,
          List.map_nil] at this ⊢
        omega
  | remove heap =>
    cases heap with
    | locked =>
      cases hl : st.mlock.locked.getLast? with
      | none => rw [step_remove_locked_none st hl]; exact ⟨hc, hd, hb⟩
      | some r =>
        rw [step_remove_locked_some st r hl]
        refine ⟨fun n => ?_, hd, hb⟩
        have := hc n
        have hsplit : st.mlock.locked.dropLast ++ [r] = st.mlock.locked :=
          List.dropLast_append_getLast? r (by simp [hl])
        show st.mapTrace.count n
            = (st.unmapTrace ++ [r.id]).count n
              + (heapIds { st.mlock with locked := st.mlock.locked.dropLast }).count n
        simp only [heapIds] at this ⊢
        rw [← hsplit] at this
        simp only [List.map_append, List.count_append, List.map_cons,
          List.map_nil] at this ⊢
        omega
    | unlocked =>
      cases hl : st.mlock.unlocked.getLast? with
      | none => rw [step_remove_unlocked_none st hl]; exact ⟨hc, hd, hb⟩
      | some r =>
        rw [step_remove_unlocked_some st r hl]
        refine ⟨fun n => ?_, hd, hb⟩
        have := hc n
        have hsplit : st.mlock.unlocked.dropLast ++ [r] = st.mlock.unlocked :=
          List.dropLast_append_getLast? r (by simp [hl])
        show st.mapTrace.count n
            = (st.unmapTrace ++ [r.id]).count n
              + (heapIds { st.mlock with unlocked := st.mlock.unlocked.dropLast }).count n
        simp only [heapIds] at this ⊢
        rw [← hsplit] at this
        simp only [List.map_append, List.count_append, List.map_cons,
          List.map_nil] at this ⊢
        omega

theorem inv_run (st : St) (ops : List Op) (h : Inv st) : Inv (run st ops) := by
  induction ops generalizing st with
  | nil => exact h
  | cons op rest ih => exact ih (step op st) (inv_step op st h)

theorem step_region_len (op : Op) (st : St)
    (h : ∀ r ∈ st.mlock.locked ++ st.mlock.unlocked, r.len = CHUNK_SIZE) :
    ∀ r ∈ (step op st).mlock.locked ++ (step op st).mlock.unlocked,
      r.len = CHUNK_SIZE := by
  have hl : ∀ r ∈ st.mlock.locked, r.len = CHUNK_SIZE :=
    fun r hr => h r (List.mem_append.mpr (Or.inl hr))
  have hu : ∀ r ∈ st.mlock.unlocked, r.len = CHUNK_SIZE :=
    fun r hr => h r (List.mem_append.mpr (Or.inr hr))
  cases op with
  | pageIn => exact h
  | add heap mmapOk lockOk =>
    cases mmapOk with
    | false => rw [step_add_mmapfail]; exact h
    | true =>
      cases heap with
      | locked =>
        cases lockOk with
        | true =>
          rw [step_add_locked_ok]
          intro r hr
          show r.len = CHUNK_SIZE
          rcases List.mem_append.mp hr with hr | hr
          · rcases List.mem_append.mp hr with hr | hr
            · exact hl r hr
            · rcases List.mem_singleton.mp hr with rfl; rfl
          · exact hu r hr
        | false => rw [step_add_locked_lockfail]; exact h
      | unlocked =>
        rw [step_add_unlocked_ok]
        intro r hr
        rcases List.mem_append.mp hr with hr | hr
        · exact hl r hr
        · rcases List.mem_append.mp hr with hr | hr
          · exact hu r hr
          · rcases List.mem_singleton.mp hr with rfl; rfl
  | remove heap =>
    cases heap with
    | locked =>
      cases hlast : st.mlock.locked.getLast? with
      | none => rw [step_remove_locked_none st hlast]; exact h
      | some r0 =>
        rw [step_remove_locked_some st r0 hlast]
        intro r hr
        rcases List.mem_append.mp hr with hr | hr
        · exact hl r (List.dropLast_subset _ hr)
        · exact hu r hr
    | unlocked =>
      cases hlast : st.mlock.unlocked.getLast? with
      | none => rw [step_remove_unlocked_none st hlast]; exact h
      | some r0 =>
        rw [step_remove_unlocked_some st r0 hlast]
        intro r hr
        rcases List.mem_append.mp hr with hr | hr
        · exact hl r hr
        · exact hu r (List.dropLast_subset _ hr)

theorem run_region_len (st : St) (ops : List Op)
    (h : ∀ r ∈ st.mlock.locked ++ st.mlock.unlocked, r.len = CHUNK_SIZE) :
    ∀ r ∈ (run st ops).mlock.locked ++ (run st ops).mlock.unlocked,
      r.len = CHUNK_SIZE := by
  induction ops generalizing st with
  | nil => exact h
  | cons op rest ih => exact ih (step op st) (step_region_len op st h)

theorem sum_len_of_uniform (l : List Region)
    (h : ∀ r ∈ l, r.len = CHUNK_SIZE) :
    (l.map Region.len).sum = l.length * CHUNK_SIZE := by
  induction l with
  | nil => rfl
  | cons r rest ih =>
    have hr : r.len = CHUNK_SIZE := h r (List.mem_cons_self _ _)
    have hrest := ih fun x hx => h x (List.mem_cons_of_mem _ hx)
    simp [hr, hrest, Nat.succ_mul, Nat.add_comm]

theorem run_locked_length (st : St) (ops : List Op)
    (h : ∀ op ∈ ops, op = Op.add .locked true true ∨ op = Op.remove .locked) :
    (run st ops).mlock.locked.length
      = ops.foldl
          (fun n op =>
            match op with
            | Op.add .locked _ _ => n + 1
            | Op.remove .locked => n - 1
            | _ => n)
          st.mlock.locked.length := by
  induction ops generalizing st with
  | nil => rfl
  | cons op rest ih =>
    have hop := h op (List.mem_cons_self _ _)
    have hrest : ∀ op ∈ rest, op = Op.add .locked true true ∨ op = Op.remove .locked :=
      fun o ho => h o (List.mem_cons_of_mem _ ho)
    rcases hop with rfl | rfl
    · have hlen : (step (.add .locked true true) st).mlock.locked.length
          = st.mlock.locked.length + 1 := by
        rw [step_add_locked_ok]
        simp
      show (run (step (.add .locked true true) st) rest).mlock.locked.length = _
      rw [ih _ hrest, hlen, List.foldl_cons]
    · have hlen : (step (.remove .locked) st).mlock.locked.length
          = st.mlock.locked.length - 1 := by
        cases hlast : st.mlock.locked.getLast? with
        | none =>
          rw [step_remove_locked_none st hlast]
          rw [List.getLast?_eq_none_iff.mp hlast]
          rfl
        | some r0 =>
          rw [step_remove_locked_some st r0 hlast]
          simp [List.length_dropLast]
      show (run (step (.remove .locked) st) rest).mlock.locked.length = _
      rw [ih _ hrest, hlen, List.foldl_cons]

/-! ## Lemmas on Mmap::fill and the populate copy loop -/

theorem set_get? (l : List Nat) (o i v : Nat) :
    (l.set o v).get? i = if i = o ∧ i < l.length then some v else l.get? i := by
  induction l generalizing o i with
  | nil => simp
  | cons a t ih =>
    cases o with
    | zero =>
      cases i with
      | zero => simp
      | succ i => simp [List.set]
    | succ o =>
      cases i with
      | zero => simp [List.set]
      | succ i =>
        show (t.set o v).get? i = _
        rw [ih o i]
        have hiff : (i = o ∧ i < t.length) ↔ (i + 1 = o + 1 ∧ i + 1 < (a :: t).length) := by
          simp only [List.length_cons]
          omega
        simp only [hiff]
        rfl

theorem foldl_set_get? (v : Nat) (ws : List Nat) (bs : List Nat) (i : Nat) :
    ((ws.foldl (fun b o => b.set o v) bs).get? i)
      = if i ∈ ws ∧ i < bs.length then some v else bs.get? i := by
  induction ws generalizing bs with
  | nil => simp
  | cons o ws ih =>
    simp only [List.foldl_cons]
    rw [ih (bs.set o v), List.length_set, set_get?]
    by_cases h1 : i ∈ ws <;> by_cases h2 : i < bs.length <;> by_cases h3 : i = o <;>
      simp [h1, h2, h3, List.mem_cons] <;> intros <;> simp_all

theorem mem_fillOffsets (P L o : Nat) (hP : 0 < P) (hov : L + P ≤ 2 ^ 64) :
    o ∈ fillOffsets P L ↔ o < L ∧ o % P = 0 := by
  unfold fillOffsets pageCount
  have hmod : (L + P - 1) % 2 ^ 64 = L + P - 1 := Nat.mod_eq_of_lt (by omega)
  rw [hmod]
  simp only [List.mem_map, List.mem_range]
  constructor
  · rintro ⟨k, hk, rfl⟩
    refine ⟨?_, Nat.mul_mod_left k P⟩
    have h2 : (k + 1) * P ≤ L + P - 1 := (Nat.le_div_iff_mul_le hP).1 hk
    have h3 : (k + 1) * P = k * P + P := by ring
    omega
  · rintro ⟨hL, hmod0⟩
    obtain ⟨k, rfl⟩ := Nat.dvd_of_mod_eq_zero hmod0
    refine ⟨k, ?_, Nat.mul_comm k P⟩
    rw [Nat.lt_iff_add_one_le, Nat.le_div_iff_mul_le hP]
    have h3 : (k + 1) * P = P * k + P := by ring
    omega

theorem fillOffsets_nodup (P L : Nat) (hP : 0 < P) : (fillOffsets P L).Nodup := by
  unfold fillOffsets
  exact List.Nodup.map (fun a b hab => Nat.eq_of_mul_eq_mul_right hP hab)
    (List.nodup_range _)

theorem fillOffsets_length (P L : Nat) (hov : L + P ≤ 2 ^ 64) :
    (fillOffsets P L).length = (L + P - 1) / P := by
  unfold fillOffsets pageCount
  rw [Nat.mod_eq_of_lt (show L + P - 1 < 2 ^ 64 by omega)]
  simp

theorem populateChunksGo_spec (fuel : Nat) :
    ∀ (len off : Nat), len - off ≤ fuel →
      ∀ p ∈ populateChunksGo fuel len off,
        p.2 = min (len - p.1) BUF_SIZE ∧ off ≤ p.1 ∧ p.1 < len := by
  induction fuel with
  | zero =>
    intro len off hle p hp
    simp [populateChunksGo] at hp
  | succ fuel ih =>
    intro len off hle p hp
    by_cases hlt : off < len
    · simp only [populateChunksGo, if_pos hlt] at hp
      rcases List.mem_cons.mp hp with rfl | hp
      · exact ⟨rfl, Nat.le_refl _, hlt⟩
      · have hbuf : 0 < BUF_SIZE := by norm_num [BUF_SIZE]
        have hcopy : 0 < min (len - off) BUF_SIZE := by
          have : 0 < len - off := by omega
          exact Nat.lt_min.mpr ⟨this, hbuf⟩
        have := ih len (off + min (len - off) BUF_SIZE) (by omega) p hp
        exact ⟨this.1, by omega, this.2.2⟩
    · simp [populateChunksGo, if_neg hlt] at hp

theorem populateChunks_spec (len off : Nat) :
    ∀ p ∈ populateChunks len off, p.2 = min (len - p.1) BUF_SIZE := by
  intro p hp
  exact (populateChunksGo_spec (len - off) len off (Nat.le_refl _) p hp).1

/-! ## Projection lemmas for Mlock::remove and the break arms of the parsers -/

theorem removeStep_locked_proj (st : St) :
    (removeStep .locked st).1 = !st.mlock.locked.isEmpty
    ∧ (removeStep .locked st).2.mlock.locked = st.mlock.locked.dropLast
    ∧ (removeStep .locked st).2.mlock.unlocked = st.mlock.unlocked := by
  cases hl : st.mlock.locked.getLast? with
  | none =>
    have hnil : st.mlock.locked = [] := List.getLast?_eq_none_iff.mp hl
    simp [removeStep, hl, hnil]
  | some r =>
    have hne : st.mlock.locked ≠ [] := by
      intro hx
      rw [hx] at hl
      cases hl
    simp [removeStep, hl, List.isEmpty_iff, hne]

theorem removeStep_unlocked_proj (st : St) :
    (removeStep .unlocked st).1 = !st.mlock.unlocked.isEmpty
    ∧ (removeStep .unlocked st).2.mlock.unlocked = st.mlock.unlocked.dropLast
    ∧ (removeStep .unlocked st).2.mlock.locked = st.mlock.locked := by
  cases hl : st.mlock.unlocked.getLast? with
  | none =>
    have hnil : st.mlock.unlocked = [] := List.getLast?_eq_none_iff.mp hl
    simp [removeStep, hl, hnil]
  | some r =>
    have hne : st.mlock.unlocked ≠ [] := by
      intro hx
      rw [hx] at hl
      cases hl
    simp [removeStep, hl, List.isEmpty_iff, hne]

theorem meminfoLine_anon (p : Proc) (l : List Char)
    (h : "AnonPages:".data.isPrefixOf l = true) :
    meminfoLine p l = ({ p with anon_pages := lineVal l }, true) := by
  have h1 : "Mlocked:".data.isPrefixOf l = false := by
    by_contra hx
    rw [Bool.not_eq_false] at hx
    exact prefixes_clash _ _ l 0 (by decide) (by decide) (by decide) hx h
  have h2 : "SwapTotal:".data.isPrefixOf l = false := by
    by_contra hx
    rw [Bool.not_eq_false] at hx
    exact prefixes_clash _ _ l 0 (by decide) (by decide) (by decide) hx h
  have h3 : "SwapFree:".data.isPrefixOf l = false := by
    by_contra hx
    rw [Bool.not_eq_false] at hx
    exact prefixes_clash _ _ l 0 (by decide) (by decide) (by decide) hx h
  simp [meminfoLine, h1, h2, h3, h]

theorem statusLine_vmswap (s : ProcSelf) (l : List Char)
    (h : "VmSwap:".data.isPrefixOf l = true) :
    statusLine s l = ({ s with vm_swap := lineVal l }, true) := by
  have h1 : "VmLck:".data.isPrefixOf l = false := by
    by_contra hx
    rw [Bool.not_eq_false] at hx
    exact prefixes_clash _ _ l 2 (by decide) (by decide) (by decide) hx h
  have h2 : "RssAnon:".data.isPrefixOf l = false := by
    by_contra hx
    rw [Bool.not_eq_false] at hx
    exact prefixes_clash _ _ l 0 (by decide) (by decide) (by decide) hx h
  simp [statusLine, h1, h2, h]

theorem anon_not_mlocked (l : List Char)
    (h : "AnonPages:".data.isPrefixOf l = true) :
    "Mlocked:".data.isPrefixOf l = false := by
  by_contra hx
  rw [Bool.not_eq_false] at hx
  exact prefixes_clash _ _ l 0 (by decide) (by decide) (by decide) hx h

theorem vmswap_not_vmlck (l : List Char)
    (h : "VmSwap:".data.isPrefixOf l = true) :
    "VmLck:".data.isPrefixOf l = false := by
  by_contra hx
  rw [Bool.not_eq_false] at hx
  exact prefixes_clash _ _ l 2 (by decide) (by decide) (by decide) hx h

theorem runMeminfo_stop_cut (p : Proc) (pre post : List (Option (List Char)))
    (l : List Char) (h : "AnonPages:".data.isPrefixOf l = true) :
    runMeminfo p (pre ++ some l :: post) = runMeminfo p (pre ++ [some l]) := by
  induction pre generalizing p with
  | nil =>
    simp only [List.nil_append]
    rw [runMeminfo_cons_some, runMeminfo_cons_some, meminfoLine_anon p l h]
    simp
  | cons x rest ih =>
    cases x with
    | none => rfl
    | some s =>
      rw [List.cons_append, List.cons_append, runMeminfo_cons_some, runMeminfo_cons_some]
      cases hb : (meminfoLine p s).2 with
      | true => simp [hb]
      | false =>
        simp only [hb, if_false, Bool.false_eq_true]
        exact ih _

theorem runStatus_stop_cut (s : ProcSelf) (pre post : List (Option (List Char)))
    (l : List Char) (h : "VmSwap:".data.isPrefixOf l = true) :
    runStatus s (pre ++ some l :: post) = runStatus s (pre ++ [some l]) := by
  induction pre generalizing s with
  | nil =>
    simp only [List.nil_append]
    rw [runStatus_cons_some, runStatus_cons_some, statusLine_vmswap s l h]
    simp
  | cons x rest ih =>
    cases x with
    | none => rfl
    | some s' =>
      rw [List.cons_append, List.cons_append, runStatus_cons_some, runStatus_cons_some]
      cases hb : (statusLine s s').2 with
      | true => simp [hb]
      | false =>
        simp only [hb, if_false, Bool.false_eq_true]
        exact ih _

theorem noLineWith_append_one (tag : List Char) (pre : List (Option (List Char)))
    (l : List Char) (hpre : noLineWith tag pre = true)
    (hl : tag.isPrefixOf l = false) :
    noLineWith tag (pre ++ [some l]) = true := by
  simp only [noLineWith, List.all_append, List.all_cons, List.all_nil,
    Bool.and_eq_true, Bool.not_eq_true'] at hpre ⊢
  exact ⟨hpre, hl, trivial⟩

/-! ## The claims -/

/-- C1: over every sequence of session actions — adds whose anonymous mapping or
locking may fail, removes, page-ins — followed by session teardown (reached the
same way on normal quit, fatal error or early return: the owner goes out of
scope), every mapping that was ever created is released exactly once: the munmap
trace counts every successfully mmapped id exactly once, an id never mapped is
never released, and no id is released twice. -/
theorem c1_release_exactly_once (ops : List Op) :
    (∀ n, (finalize (run St.start ops)).unmapTrace.count n
        = (finalize (run St.start ops)).mapTrace.count n)
    ∧ ∀ n, (finalize (run St.start ops)).mapTrace.count n ≤ 1 := by
  obtain ⟨hc, hd, hb⟩ := inv_run St.start ops inv_start
  constructor
  · intro n
    have := hc n
    show ((run St.start ops).unmapTrace ++ heapIds (run St.start ops).mlock).count n
        = (run St.start ops).mapTrace.count n
    simp only [List.count_append]
    omega
  · intro n
    exact List.nodup_iff_count_le_one.1 hd n

/-- C2 counterexample: a session whose first snapshot reads cumulative pswpin 5
and whose second reads 3 (a decreased counter) gets swap-in delta 2^64 − 2 — the
u64 subtraction wraps — and not the zero the claim requires. -/
theorem c2_counterexample :
    (Proc.collect 4096 (some (Proc.collect 4096 none (some []) (some vmstatFirst)))
        (some []) (some vmstatDecreased)).pswpin_delta = 2 ^ 64 - 2
    ∧ (Proc.collect 4096 (some (Proc.collect 4096 none (some []) (some vmstatFirst)))
        (some []) (some vmstatDecreased)).pswpin_delta ≠ 0 := by
  exact ⟨by decide, by decide⟩

/-- C2 amended: the swap-in and swap-out deltas of the very first snapshot
(collected with no previous snapshot) are zero, and a snapshot collected with a
previous snapshot has delta = current − previous whenever the cumulative counter
did not decrease; but when the counter has decreased, the u64 subtraction wraps
modulo 2^64 to a nonzero value (and a debug build panics) instead of saturating
to zero. -/
theorem c2_swap_delta_amended (ps : Nat) (prev : Proc) (m v : Src)
    (hin : prev.pswpin < 2 ^ 64) (hout : prev.pswpout < 2 ^ 64) :
    (∀ ps' m' v', (Proc.collect ps' none m' v').pswpin_delta = 0
        ∧ (Proc.collect ps' none m' v').pswpout_delta = 0)
    ∧ (prev.pswpin ≤ (Proc.collect ps (some prev) m v).pswpin →
        (Proc.collect ps (some prev) m v).pswpin_delta
          = (Proc.collect ps (some prev) m v).pswpin - prev.pswpin)
    ∧ ((Proc.collect ps (some prev) m v).pswpin < prev.pswpin →
        (Proc.collect ps (some prev) m v).pswpin_delta
          = 2 ^ 64 + (Proc.collect ps (some prev) m v).pswpin - prev.pswpin
        ∧ 0 < (Proc.collect ps (some prev) m v).pswpin_delta)
    ∧ (prev.pswpout ≤ (Proc.collect ps (some prev) m v).pswpout →
        (Proc.collect ps (some prev) m v).pswpout_delta
          = (Proc.collect ps (some prev) m v).pswpout - prev.pswpout)
    ∧ ((Proc.collect ps (some prev) m v).pswpout < prev.pswpout →
        (Proc.collect ps (some prev) m v).pswpout_delta
          = 2 ^ 64 + (Proc.collect ps (some prev) m v).pswpout - prev.pswpout
        ∧ 0 < (Proc.collect ps (some prev) m v).pswpout_delta) := by
  have hlt := collect_pswp_lt ps (some prev) m v
  have hd := collect_some_delta ps prev m v
  refine ⟨fun ps' m' v' => collect_none_delta ps' m' v', ?_, ?_, ?_, ?_⟩
  · intro hle
    rw [hd.1]
    unfold wsub64
    omega
  · intro hgt
    rw [hd.1]
    unfold wsub64
    constructor <;> omega
  · intro hle
    rw [hd.2]
    unfold wsub64
    omega
  · intro hgt
    rw [hd.2]
    unfold wsub64
    constructor <;> omega

/-- C2 witness: with a previous snapshot at pswpin 5 and a current source reading
9 (non-decreasing), the delta is exactly current − previous. -/
theorem c2_witness :
    (Proc.collect 4096 (some (Proc.collect 4096 none (some []) (some vmstatFirst)))
        (some []) (some vmstatIncreased)).pswpin_delta
      = (Proc.collect 4096 (some (Proc.collect 4096 none (some []) (some vmstatFirst)))
          (some []) (some vmstatIncreased)).pswpin
        - (Proc.collect 4096 none (some []) (some vmstatFirst)).pswpin :=
  (c2_swap_delta_amended 4096 (Proc.collect 4096 none (some []) (some vmstatFirst))
    (some []) (some vmstatIncreased) (by decide) (by decide)).2.1 (by decide)

/-- C3: for every session state, when add(locked) fails at the lock step (the
anonymous mapping succeeded, locking it failed), the add reports failure, both
heaps — the whole session state — are left exactly as before, and the transient
mapping is created and released once (no leak, no partial state). -/
theorem c3_add_locked_lock_failure (st : St) :
    (addStep .locked true false st).1 = false
    ∧ (addStep .locked true false st).2.mlock = st.mlock
    ∧ (addStep .locked true false st).2.mapTrace = st.mapTrace ++ [st.nextId]
    ∧ (addStep .locked true false st).2.unmapTrace = st.unmapTrace ++ [st.nextId] :=
  ⟨rfl, rfl, rfl, rfl⟩

/-- C4 counterexample: the sequence add, remove, remove, add contains two adds
and two removes, so the claim predicts a locked-heap size of
max(0, 2 − 2) × quantum = 0; but the second remove hits an empty heap and does
nothing, and one region (one quantum) is left at the end. -/
theorem c4_counterexample :
    c4ops.countP (fun op => op == Op.add .locked true true) = 2
    ∧ c4ops.countP (fun op => op == Op.remove .locked) = 2
    ∧ (run St.start c4ops).mlock.lockedBytes = 1 * CHUNK_SIZE
    ∧ 1 * CHUNK_SIZE ≠ max 0 (2 - 2) * CHUNK_SIZE := by
  exact ⟨by decide, by decide, by decide, by decide⟩

/-- C4 amended: for every locked-only action sequence whose adds all succeed, the
locked-heap total size after the sequence equals the fold that adds one region
per add and removes one — bounded below by the empty heap, as Vec::pop on empty
does nothing — per remove, times the quantum; and after every prefix of the
sequence the total size is the region count times the quantum, hence a
non-negative multiple of the quantum. -/
theorem c4_locked_size_amended (ops : List Op)
    (h : ∀ op ∈ ops, op = Op.add .locked true true ∨ op = Op.remove .locked) :
    (run St.start ops).mlock.lockedBytes = lockedNet ops * CHUNK_SIZE
    ∧ ∀ pre, pre <+: ops →
        (run St.start pre).mlock.lockedBytes
          = (run St.start pre).mlock.locked.length * CHUNK_SIZE := by
  have huniform : ∀ (l : List Op), ∀ r ∈ (run St.start l).mlock.locked,
      r.len = CHUNK_SIZE := by
    intro l r hr
    exact run_region_len St.start l (by simp [St.start]) r
      (List.mem_append.mpr (Or.inl hr))
  constructor
  · have hlen := run_locked_length St.start ops h
    have hbytes := sum_len_of_uniform _ (huniform ops)
    show ((run St.start ops).mlock.locked.map Region.len).sum = _
    rw [hbytes, hlen]
    rfl
  · intro pre _
    exact sum_len_of_uniform _ (huniform pre)

/-- C4 witness: two successful adds then one remove leave one region, one quantum
of locked bytes. -/
theorem c4_witness :
    (run St.start [Op.add .locked true true, Op.add .locked true true,
        Op.remove .locked]).mlock.lockedBytes
      = lockedNet [Op.add .locked true true, Op.add .locked true true,
          Op.remove .locked] * CHUNK_SIZE :=
  (c4_locked_size_amended _ (by decide)).1

/-- C5: a successful add(unlocked) followed immediately by remove(unlocked)
restores the unlocked heap exactly (size and membership) and never touches the
locked heap; remove(heap) pops the most recently added region of exactly that
heap (strict LIFO), returns whether a region existed to remove, and leaves the
other heap untouched — the two heaps are independent stacks, also under add. -/
theorem c5_unlocked_round_trip_lifo (st : St) :
    ((removeStep .unlocked (addStep .unlocked true true st).2).2.mlock.unlocked
        = st.mlock.unlocked)
    ∧ ((removeStep .unlocked (addStep .unlocked true true st).2).2.mlock.locked
        = st.mlock.locked)
    ∧ ((removeStep .locked st).1 = !st.mlock.locked.isEmpty)
    ∧ ((removeStep .unlocked st).1 = !st.mlock.unlocked.isEmpty)
    ∧ ((removeStep .locked st).2.mlock.locked = st.mlock.locked.dropLast)
    ∧ ((removeStep .unlocked st).2.mlock.unlocked = st.mlock.unlocked.dropLast)
    ∧ ((removeStep .locked st).2.mlock.unlocked = st.mlock.unlocked)
    ∧ ((removeStep .unlocked st).2.mlock.locked = st.mlock.locked)
    ∧ ((addStep .locked true true st).2.mlock.unlocked = st.mlock.unlocked)
    ∧ ((addStep .unlocked true true st).2.mlock.locked = st.mlock.locked) := by
  have hrt := removeStep_unlocked_proj (addStep .unlocked true true st).2
  have hadd : (addStep .unlocked true true st).2.mlock.unlocked
      = st.mlock.unlocked
        ++ [⟨st.nextId, CHUNK_SIZE, some (probeByte st.mlock.unlocked.length)⟩] := rfl
  refine ⟨?_, ?_, (removeStep_locked_proj st).1, (removeStep_unlocked_proj st).1,
    (removeStep_locked_proj st).2.1, (removeStep_unlocked_proj st).2.1,
    (removeStep_locked_proj st).2.2, (removeStep_unlocked_proj st).2.2, rfl, rfl⟩
  · rw [hrt.2.1, hadd]
    simp
  · exact hrt.2.2

set_option maxRecDepth 8192 in
/-- C6 counterexample: with 255 unlocked regions already present, the probe byte
(255 + 1) truncated to u8 is 0, so the 256th unlocked region is filled with a
zero byte — the pattern is not non-zero for every prior count. -/
theorem c6_counterexample :
    probeByte 255 = 0
    ∧ ((addStep .unlocked true true st255).2.mlock.unlocked.getLast?).map Region.fillVal
        = some (some 0) := by
  exact ⟨by decide, by decide⟩

/-- C6 amended: add(unlocked) fills the new region with probe byte
(count + 1) mod 256 before appending it; that byte is non-zero whenever
count mod 256 ≠ 255 — in particular for each of the first 255 unlocked
regions — but is zero whenever count ≡ 255 (mod 256). -/
theorem c6_probe_byte_amended (st : St) (n : Nat) (h : n % 256 ≠ 255) :
    (addStep .unlocked true true st).2.mlock.unlocked
      = st.mlock.unlocked
        ++ [⟨st.nextId, CHUNK_SIZE, some (probeByte st.mlock.unlocked.length)⟩]
    ∧ probeByte n ≠ 0 := by
  refine ⟨rfl, ?_⟩
  unfold probeByte
  omega

/-- C6 witness: on the empty session the added unlocked region is filled with
probe byte 1, and a count of 41 yields a non-zero probe byte. -/
theorem c6_witness :
    (addStep .unlocked true true St.start).2.mlock.unlocked
      = [⟨0, CHUNK_SIZE, some (probeByte 0)⟩] ∧ probeByte 41 ≠ 0 :=
  c6_probe_byte_amended St.start 41 (by decide)

/-- C7 counterexample: with region length 2 and page stride 2^64 − 1 (exactly the
stride fill uses after a failed page-size query), the claim demands exactly
ceil(2 / (2^64 − 1)) = 1 written offset, but the page-count computation wraps
(a debug build panics) and fill writes nothing at all. -/
theorem c7_counterexample :
    fillOffsets (2 ^ 64 - 1) 2 = []
    ∧ fillBytes (2 ^ 64 - 1) 9 [7, 7] = [7, 7]
    ∧ (2 + (2 ^ 64 - 1) - 1) / (2 ^ 64 - 1) = 1 := by
  exact ⟨by decide, by decide, by decide⟩

/-- C7 amended: for every writable region, byte value, and page size P with
0 < P and L + P ≤ 2^64 — so the usize page-count computation cannot overflow;
every genuine platform page size satisfies this — fill writes the byte to
exactly ceil(L / P) distinct offsets, namely the multiples of P below L (the
first byte of each page), and leaves every other byte at its prior value. -/
theorem c7_fill_writes_amended (P v : Nat) (bytes : List Nat)
    (hP : 0 < P) (hov : bytes.length + P ≤ 2 ^ 64) :
    (fillOffsets P bytes.length).length = (bytes.length + P - 1) / P
    ∧ (fillOffsets P bytes.length).Nodup
    ∧ (∀ o, o ∈ fillOffsets P bytes.length ↔ o < bytes.length ∧ o % P = 0)
    ∧ ∀ i, (fillBytes P v bytes).get? i
        = if i < bytes.length ∧ i % P = 0 then some v else bytes.get? i := by
  refine ⟨fillOffsets_length P bytes.length hov, fillOffsets_nodup P bytes.length hP,
    fun o => mem_fillOffsets P bytes.length o hP hov, fun i => ?_⟩
  unfold fillBytes
  rw [foldl_set_get?]
  have hmem := mem_fillOffsets P bytes.length i hP hov
  by_cases h : i < bytes.length ∧ i % P = 0
  · rw [if_pos ⟨hmem.2 h, h.1⟩, if_pos h]
  · rw [if_neg fun hx => h (hmem.1 hx.1), if_neg h]

/-- C7 witness: a ten-byte region with page size 4 gets ceil(10/4) = 3 writes;
offset 4 is overwritten with the probe byte while offset 5 keeps its old value. -/
theorem c7_witness :
    (fillOffsets 4 ([7, 7, 7, 7, 7, 7, 7, 7, 7, 7] : List Nat).length).length
        = (10 + 4 - 1) / 4
    ∧ (fillBytes 4 9 [7, 7, 7, 7, 7, 7, 7, 7, 7, 7]).get? 4 = some 9
    ∧ (fillBytes 4 9 [7, 7, 7, 7, 7, 7, 7, 7, 7, 7]).get? 5 = some 7 := by
  have h := c7_fill_writes_amended 4 9 [7, 7, 7, 7, 7, 7, 7, 7, 7, 7]
    (by decide) (by decide)
  refine ⟨h.1, ?_, ?_⟩
  · rw [h.2.2.2 4]
    decide
  · rw [h.2.2.2 5]
    decide

/-- C8 counterexample: when the page-size query fails (sysconf returns −1), fill
uses stride 2^64 − 1 — the negative result is cast to usize before the sign
check, so the 4096 fallback is never taken; and the copy-loop page-in of
pgmajfault never consults the page size at all: on a 16384-byte-page platform it
still copies through fixed 4096-byte chunks. -/
theorem c8_counterexample :
    fillPageSize (-1) = 2 ^ 64 - 1
    ∧ fillPageSize (-1) ≠ 4096
    ∧ populateChunks 16384 0
        = [(0, 4096), (4096, 4096), (8192, 4096), (12288, 4096)] := by
  exact ⟨by decide, by decide, by decide⟩

/-- C8 amended: fill's page stride equals the sysconf result when that result is
positive, and 4096 when it is exactly zero; a negative (error) result is cast to
a huge unsigned stride (at least 2^63) and used as-is rather than falling back
to 4096. The copy-loop page-in does not consult the platform page size: every
chunk it copies is min(remaining, 4096) bytes through the fixed 4096-byte
buffer. -/
theorem c8_page_size_amended (r : Int) :
    (0 < r → r < 2 ^ 63 → fillPageSize r = r.toNat)
    ∧ (r = 0 → fillPageSize r = 4096)
    ∧ (-2 ^ 63 ≤ r → r < 0 →
        fillPageSize r = (2 ^ 64 + r).toNat ∧ 2 ^ 63 ≤ fillPageSize r)
    ∧ ∀ len off, ∀ p ∈ populateChunks len off, p.2 = min (len - p.1) BUF_SIZE := by
  refine ⟨?_, ?_, ?_, fun len off => populateChunks_spec len off⟩
  · intro h1 h2
    simp only [fillPageSize, toUsize]
    have hmod : r % ((2 : Int) ^ 64) = r := by omega
    rw [hmod]
    have hpos : ¬ (r.toNat ≤ 0) := by omega
    rw [if_neg hpos]
  · rintro rfl
    decide
  · intro h1 h2
    simp only [fillPageSize, toUsize]
    have hmod : r % ((2 : Int) ^ 64) = r + 2 ^ 64 := by omega
    rw [hmod]
    have hpos : ¬ ((r + 2 ^ 64).toNat ≤ 0) := by omega
    rw [if_neg hpos]
    constructor <;> omega

/-- C8 witness: a successful 4096-byte page-size query is used as reported, and
populating a 5000-byte region copies a full 4096-byte chunk then the 904-byte
remainder. -/
theorem c8_witness :
    fillPageSize 4096 = (4096 : Int).toNat
    ∧ ∀ p ∈ populateChunks 5000 0, p.2 = min (5000 - p.1) BUF_SIZE :=
  ⟨(c8_page_size_amended 4096).1 (by decide) (by decide),
   fun p hp => (c8_page_size_amended 4096).2.2.2 5000 0 p hp⟩

/-- C9: telemetry collection never aborts and never surfaces an error: a source
with no SwapTotal line yields swap total 0 whatever else it holds; a failed line
read merely cuts parsing short, keeping the fields read so far; fully unreadable
sources yield the all-zero snapshot; an unparsable value defaults that one field
to zero; and the concrete scenario-3 source missing SwapTotal yields a snapshot
with swap total 0 and every other field populated normally. -/
theorem c9_graceful_degradation :
    (∀ ps prev v ls, noLineWith "SwapTotal:".data ls = true →
        (Proc.collect ps prev (some ls) v).swap_total = 0)
    ∧ (∀ p pre post, runMeminfo p (pre ++ none :: post) = runMeminfo p pre)
    ∧ (∀ ps, Proc.collect ps none none none = Proc.start ps)
    ∧ (runMeminfo (Proc.start 4096) [some "SwapTotal: junk kB".data]).swap_total = 0
    ∧ Proc.collect 4096 none (some scenario3Meminfo) (some scenario3Vmstat)
        = ⟨4096, 100, 0, 200, 300, 7, 8, 0, 0⟩ := by
  refine ⟨fun ps prev v ls h => collect_swap_total ps prev v ls h,
    fun p pre post => runMeminfo_error_cut p pre post,
    fun ps => rfl, by decide, by decide⟩

/-- C9 witness: a meminfo source holding only a Mlocked line (so no SwapTotal
line) collects to a snapshot whose swap total is zero. -/
theorem c9_witness :
    (Proc.collect 0 none (some [some "Mlocked: 1 kB".data]) none).swap_total = 0 :=
  c9_graceful_degradation.1 0 none none [some "Mlocked: 1 kB".data] (by decide)

/-- C10: meminfo parsing stops at the first AnonPages line and status parsing at
the first VmSwap line — everything after the stopping line is ignored — so a
target counter line (here Mlocked, resp. VmLck) occurring only after the
stopping line leaves its field at the zero default it had before parsing. -/
theorem c10_parse_stops_at_break :
    (∀ (p : Proc) pre post l, "AnonPages:".data.isPrefixOf l = true →
        runMeminfo p (pre ++ some l :: post) = runMeminfo p (pre ++ [some l]))
    ∧ (∀ (s : ProcSelf) pre post l, "VmSwap:".data.isPrefixOf l = true →
        runStatus s (pre ++ some l :: post) = runStatus s (pre ++ [some l]))
    ∧ (∀ (p : Proc) pre post l, "AnonPages:".data.isPrefixOf l = true →
        noLineWith "Mlocked:".data pre = true →
        (runMeminfo p (pre ++ some l :: post)).mlocked = p.mlocked)
    ∧ (∀ (s : ProcSelf) pre post l, "VmSwap:".data.isPrefixOf l = true →
        noLineWith "VmLck:".data pre = true →
        (runStatus s (pre ++ some l :: post)).vm_lck = s.vm_lck) := by
  refine ⟨fun p pre post l h => runMeminfo_stop_cut p pre post l h,
    fun s pre post l h => runStatus_stop_cut s pre post l h, ?_, ?_⟩
  · intro p pre post l h hpre
    rw [runMeminfo_stop_cut p pre post l h]
    exact runMeminfo_mlocked p _
      (noLineWith_append_one _ pre l hpre (anon_not_mlocked l h))
  · intro s pre post l h hpre
    rw [runStatus_stop_cut s pre post l h]
    exact runStatus_vm_lck s _
      (noLineWith_append_one _ pre l hpre (vmswap_not_vmlck l h))

/-- C10 witness: a Mlocked line that appears only after the AnonPages stopping
line is ignored — the collected mlocked field stays at its zero default. -/
theorem c10_witness :
    (runMeminfo (Proc.start 0)
        ([some "SwapFree: 3 kB".data] ++ some "AnonPages: 1 kB".data
          :: [some "Mlocked: 9 kB".data])).mlocked = (Proc.start 0).mlocked :=
  c10_parse_stops_at_break.2.2.1 (Proc.start 0) [some "SwapFree: 3 kB".data]
    [some "Mlocked: 9 kB".data] "AnonPages: 1 kB".data (by decide) (by decide)

end Rustest
